import Mathlib

/-!
Verification of the quadratic Bézier curve primitive
(`path-utils/src/curve.rs` of the pathfinder repository).

The program works on 2D points with floating-point coordinates.  We embed
the arithmetic exactly: coordinates are rational numbers, the double
precision intermediate computation of the root solver is exact rational
arithmetic, and the one irrational operation (the square root inside the
Citardauq formula) is tracked symbolically by the type `Qs` of numbers of
the form `p + q·√d`.  The IEEE special values (NaN, ±∞, signed zero) that
can arise inside `solve_t_for_x` are analysed case by case, following the
IEEE-754 evaluation of the source expression
`2.0 * c / (-b - (b*b - 4.0*a*c).sqrt())` and of `t.max(0.0).min(1.0)`
(Rust's `f64::max`/`f64::min` return the other operand when one argument
is NaN).
-/

/-- A 2D point, embedding `euclid::Point2D<f32>` with exact coordinates. -/
@[ext]
structure Point2D (α : Type) where
  x : α
  y : α
deriving DecidableEq, Repr

/-- Modelled from the spec: the linear interpolation helper of the external
point type (`euclid`'s `Point2D::lerp`), `(1 - t) * self + t * other`
componentwise; the spec describes sampling as "interpolate start→control
and control→end at t, then interpolate those two results at t again". -/
def Point2D.lerp {α : Type} [CommRing α] (p other : Point2D α) (t : α) : Point2D α :=
  ⟨(1 - t) * p.x + t * other.x, (1 - t) * p.y + t * other.y⟩

/-- Componentwise map, used to interpret a rational-coordinate curve over ℝ. -/
def Point2D.map {α β : Type} (f : α → β) (p : Point2D α) : Point2D β :=
  ⟨f p.x, f p.y⟩

/-- The curve struct of the source: two endpoints (index 0 the start,
index 1 the end) and one control point. -/
structure Curve (α : Type) where
  endpoints : Fin 2 → Point2D α
  control_point : Point2D α

/-- `Curve::new(endpoint_0, control_point, endpoint_1)`. -/
def Curve.new {α : Type} (endpoint_0 control_point endpoint_1 : Point2D α) : Curve α :=
  { endpoints := ![endpoint_0, endpoint_1], control_point := control_point }

/-- Componentwise map of a curve. -/
def Curve.map {α β : Type} (f : α → β) (c : Curve α) : Curve β :=
  { endpoints := fun i => (c.endpoints i).map f
    control_point := c.control_point.map f }

/-- `Curve::sample`: one level of de Casteljau interpolation. -/
def Curve.sample {α : Type} [CommRing α] (c : Curve α) (t : α) : Point2D α :=
  let p0 := c.endpoints 0
  let p1 := c.control_point
  let p2 := c.endpoints 1
  Point2D.lerp (p0.lerp p1 t) (p1.lerp p2 t) t

/-- `Curve::subdivide`: one step of de Casteljau subdivision at `t`. -/
def Curve.subdivide {α : Type} [CommRing α] (c : Curve α) (t : α) : Curve α × Curve α :=
  let p0 := c.endpoints 0
  let p1 := c.control_point
  let p2 := c.endpoints 1
  let ap1 := p0.lerp p1 t
  let bp1 := p1.lerp p2 t
  let ap2bp0 := ap1.lerp bp1 t
  (Curve.new p0 ap1 ap2bp0, Curve.new ap2bp0 bp1 p2)

/-- `Curve::subdivide_at_x`, with the root solve factored out: the source
computes `self.subdivide(self.solve_t_for_x(x))` and then swaps the parts
when the stored endpoints are in decreasing x order.  The parameter `t`
stands for the already-computed value of `solve_t_for_x(x)`; the theorems
about this function instantiate `t` with exactly that value. -/
def Curve.subdivide_at_x {α : Type} [CommRing α] [LinearOrder α] (c : Curve α) (t : α) :
    Curve α × Curve α :=
  let parts := c.subdivide t
  if (c.endpoints 0).x ≤ (c.endpoints 1).x then (parts.1, parts.2) else (parts.2, parts.1)

/-- Modelled from the spec: the external path-command tagged variant; only
its "curve-to" case matters here, carrying a control point and an end
point (the start point is implicit from path-drawing state). -/
inductive PathCommand (α : Type) where
  | MoveTo (dest : Point2D α)
  | LineTo (dest : Point2D α)
  | CurveTo (ctrl : Point2D α) (dest : Point2D α)
  | ClosePath
deriving DecidableEq, Repr

/-- `Curve::to_path_segment`. -/
def Curve.to_path_segment {α : Type} (c : Curve α) : PathCommand α :=
  PathCommand.CurveTo c.control_point (c.endpoints 1)

/-- Modelled from the spec: the epsilon of the external float approximate
equality helper (`euclid`'s `f32::approx_epsilon()`, `1.0e-6`); the spec
calls it "a small epsilon tied to floating-point precision". -/
def approx_epsilon : ℚ := 1 / 1000000

/-- `Curve::inflection_point_x` (a private helper applied to one coordinate
channel).  The source computes `t = num / denom` in `f32` and keeps it only
when `t > ε && t < 1 - ε`.  When `denom` is zero the float quotient is
`±∞` or NaN and both comparisons reject it; in the exact embedding the
junk value `num / 0 = 0` is likewise rejected since `0 < ε`. -/
def Curve.inflection_point_x (endpoint_x_0 control_point_x endpoint_x_1 : ℚ) : Option ℚ :=
  let num := endpoint_x_0 - control_point_x
  let denom := endpoint_x_0 - 2 * control_point_x + endpoint_x_1
  let t := num / denom
  if approx_epsilon < t ∧ t < 1 - approx_epsilon then some t else none

/-- `Curve::inflection_points`: the helper applied to the x channel and to
the y channel independently. -/
def Curve.inflection_points (c : Curve ℚ) : Option ℚ × Option ℚ :=
  (Curve.inflection_point_x (c.endpoints 0).x c.control_point.x (c.endpoints 1).x,
   Curve.inflection_point_x (c.endpoints 0).y c.control_point.y (c.endpoints 1).y)

/- ### Theorems for the purely algebraic claims -/

/-- C3: for every curve, `sample(0)` is exactly `endpoints[0]` and
`sample(1)` is exactly `endpoints[1]` (identity interpolation at the
parameter boundary; no tolerance involved). -/
theorem sample_boundary_exact (c : Curve ℚ) :
    c.sample 0 = c.endpoints 0 ∧ c.sample 1 = c.endpoints 1 := by
  refine ⟨?_, ?_⟩ <;> ext <;> simp [Curve.sample, Point2D.lerp]

/-- C4: `subdivide(t)` returns parts `(A, B)` with `A`'s start equal to the
curve's start, `B`'s end equal to the curve's end, and `A.sample(1)` equal
to `B.sample(0)` (here exactly, hence within any floating tolerance). -/
theorem subdivide_endpoint_preservation (c : Curve ℚ) (t : ℚ) :
    ((c.subdivide t).1).endpoints 0 = c.endpoints 0 ∧
    ((c.subdivide t).2).endpoints 1 = c.endpoints 1 ∧
    ((c.subdivide t).1).sample 1 = ((c.subdivide t).2).sample 0 := by
  refine ⟨?_, ?_, ?_⟩
  · simp [Curve.subdivide, Curve.new]
  · simp [Curve.subdivide, Curve.new]
  · ext <;>
      simp [Curve.subdivide, Curve.sample, Curve.new, Point2D.lerp,
        Matrix.cons_val_zero, Matrix.cons_val_one, Matrix.head_cons]

/-- C8: the concrete curve with endpoints (0,0), (10,0) and control point
(5,10): `sample(0.5) = (5,5)`; `subdivide(0.5)` yields parts whose shared
middle point is (5,5) and whose control points are (2.5,5) and (7.5,5). -/
theorem concrete_bisection_values :
    let c : Curve ℚ := Curve.new ⟨0, 0⟩ ⟨5, 10⟩ ⟨10, 0⟩
    c.sample (1/2) = ⟨5, 5⟩ ∧
    ((c.subdivide (1/2)).1).endpoints 1 = ⟨5, 5⟩ ∧
    ((c.subdivide (1/2)).2).endpoints 0 = ⟨5, 5⟩ ∧
    ((c.subdivide (1/2)).1).control_point = ⟨5/2, 5⟩ ∧
    ((c.subdivide (1/2)).2).control_point = ⟨15/2, 5⟩ ∧
    ((c.subdivide (1/2)).1).endpoints 0 = ⟨0, 0⟩ ∧
    ((c.subdivide (1/2)).2).endpoints 1 = ⟨10, 0⟩ := by
  refine ⟨?_, ?_, ?_, ?_, ?_, ?_, ?_⟩ <;>
    · ext <;>
        norm_num [Curve.sample, Curve.subdivide, Curve.new, Point2D.lerp,
          Matrix.cons_val_zero, Matrix.cons_val_one, Matrix.head_cons]

/-- C9: `to_path_segment()` is the "curve-to" path command carrying exactly
the curve's control point and its end endpoint `endpoints[1]` (the start
endpoint does not appear). -/
theorem to_path_segment_curve_to (c : Curve ℚ) :
    c.to_path_segment = PathCommand.CurveTo c.control_point (c.endpoints 1) :=
  rfl

/-- C6: for each coordinate channel independently, the inflection helper
reports `some t` with `t = (p0 - p1) / (p0 - 2 p1 + p2)` exactly when that
ratio lies strictly inside `(ε, 1 - ε)`, and `none` otherwise; when the
denominator is zero the channel reports `none` (the float quotient is
infinite or NaN there, and in the exact embedding the junk quotient `0` is
likewise outside the open interval); in particular the degenerate straight
curve with endpoints (0,0), (10,0) and control point (5,0) yields
`(none, none)`. -/
theorem inflection_point_characterization :
    (∀ p0 p1 p2 : ℚ,
      Curve.inflection_point_x p0 p1 p2 =
        if approx_epsilon < (p0 - p1) / (p0 - 2 * p1 + p2) ∧
            (p0 - p1) / (p0 - 2 * p1 + p2) < 1 - approx_epsilon
        then some ((p0 - p1) / (p0 - 2 * p1 + p2)) else none) ∧
    (∀ p0 p1 p2 : ℚ, p0 - 2 * p1 + p2 = 0 →
      Curve.inflection_point_x p0 p1 p2 = none) ∧
    (Curve.new ⟨0, 0⟩ ⟨5, 0⟩ ⟨10, 0⟩).inflection_points = (none, none) := by
  refine ⟨fun p0 p1 p2 => rfl, fun p0 p1 p2 h => ?_, ?_⟩
  · rw [Curve.inflection_point_x, h]
    norm_num [approx_epsilon]
  · norm_num [Curve.inflection_points, Curve.inflection_point_x, Curve.new,
      approx_epsilon, Matrix.cons_val_zero, Matrix.cons_val_one, Matrix.head_cons]

/-- Witness for C6: a channel with zero denominator (coordinates 0, 5, 10)
reports no inflection. -/
theorem inflection_point_characterization_witness :
    (0:ℚ) - 2 * 5 + 10 = 0 ∧ Curve.inflection_point_x 0 5 10 = none :=
  ⟨by norm_num, inflection_point_characterization.2.1 0 5 10 (by norm_num)⟩

/- ### The symbolic value type for the root solver -/

/-- A real number of the form `p + q * √d` with `p q d : ℚ`.  Values of
this type represent the exact real results of the `f64` computation inside
`Curve::solve_t_for_x`, whose only irrational step is the square root of
the discriminant. -/
structure Qs where
  p : ℚ
  q : ℚ
  d : ℚ
deriving DecidableEq, Repr

/-- Embed a rational number (`d` component 0, so the root term vanishes). -/
def Qs.ofRat (r : ℚ) : Qs := ⟨r, 0, 0⟩

/-- The real number denoted by a `Qs` value. -/
noncomputable def Qs.toReal (v : Qs) : ℝ :=
  (v.p : ℝ) + (v.q : ℝ) * Real.sqrt (v.d : ℝ)

/-- The sign of `p + q * √d` (valid for `0 ≤ d`), decided by rational
arithmetic: the root term has the sign of `q` (and vanishes when `d = 0`),
and comparisons against `p` square both sides. -/
def Qs.sgn (v : Qs) : ℤ :=
  if v.d = 0 ∨ v.q = 0 then
    (if 0 < v.p then 1 else if v.p < 0 then -1 else 0)
  else if 0 < v.q then
    (if 0 ≤ v.p then 1
     else if v.p * v.p < v.q * v.q * v.d then 1
     else if v.p * v.p = v.q * v.q * v.d then 0
     else -1)
  else
    (if v.p ≤ 0 then -1
     else if v.p * v.p < v.q * v.q * v.d then -1
     else if v.p * v.p = v.q * v.q * v.d then 0
     else 1)

/-- `v - 1`, used by the upper clamp. -/
def Qs.sub1 (v : Qs) : Qs := ⟨v.p - 1, v.q, v.d⟩

/-- The final clamp `t.max(0.0).min(1.0)` of the root solver, for a
(non-NaN, finite) value `v`: Rust's `f64::max`/`f64::min` on finite
operands are the usual maximum and minimum. -/
def Qs.clamp01 (v : Qs) : Qs :=
  let w := if v.sgn < 0 then Qs.ofRat 0 else v
  if 0 < w.sub1.sgn then Qs.ofRat 1 else w

theorem Qs.toReal_ofRat (r : ℚ) : (Qs.ofRat r).toReal = (r : ℝ) := by
  simp [Qs.toReal, Qs.ofRat]

theorem Qs.toReal_sub1 (v : Qs) : v.sub1.toReal = v.toReal - 1 := by
  simp [Qs.toReal, Qs.sub1]
  ring

theorem Qs.sgn_cases (v : Qs) : v.sgn = 1 ∨ v.sgn = 0 ∨ v.sgn = -1 := by
  unfold Qs.sgn
  split_ifs <;> norm_num


/-- Correctness of the rational sign computation with respect to the real
value `p + q * √d`, for `0 ≤ d`. -/
theorem Qs.sgn_spec (v : Qs) (hd : 0 ≤ v.d) :
    (v.sgn = 1 → 0 < v.toReal) ∧ (v.sgn = 0 → v.toReal = 0) ∧
    (v.sgn = -1 → v.toReal < 0) := by
  obtain ⟨p, q, d⟩ := v
  simp only [Qs.toReal]
  have hdQ : (0:ℚ) ≤ d := hd
  have hdR : (0:ℝ) ≤ (d : ℝ) := by exact_mod_cast hdQ
  have hs0 : (0:ℝ) ≤ Real.sqrt (d : ℝ) := Real.sqrt_nonneg _
  have hs2 : Real.sqrt (d : ℝ) * Real.sqrt (d : ℝ) = (d : ℝ) :=
    Real.mul_self_sqrt hdR
  have hq2 : (q:ℝ) * q * (Real.sqrt (d:ℝ) * Real.sqrt (d:ℝ)) = (q:ℝ) * q * d := by
    rw [hs2]
  unfold Qs.sgn
  split_ifs with h1 h2 h3 h4 h5 h6 h7 h8 h9 h10
  -- branch: d = 0 or q = 0, 0 < p
  · refine ⟨fun _ => ?_, fun hE => absurd hE (by norm_num),
      fun hE => absurd hE (by norm_num)⟩
    have hp : (0:ℝ) < (p : ℝ) := by exact_mod_cast h2
    rcases h1 with h | h <;> simp_all [Real.sqrt_zero]
  -- branch: d = 0 or q = 0, p < 0
  · refine ⟨fun hE => absurd hE (by norm_num), fun hE => absurd hE (by norm_num),
      fun _ => ?_⟩
    have hp : (p : ℝ) < 0 := by exact_mod_cast h3
    rcases h1 with h | h <;> simp_all [Real.sqrt_zero]
  -- branch: d = 0 or q = 0, p = 0
  · refine ⟨fun hE => absurd hE (by norm_num), fun _ => ?_,
      fun hE => absurd hE (by norm_num)⟩
    have hp : (p : ℝ) = 0 := by
      have : p = 0 := le_antisymm (not_lt.mp h2) (not_lt.mp h3)
      exact_mod_cast this
    rcases h1 with h | h <;> simp_all [Real.sqrt_zero]
  -- from here on: d ≠ 0 and q ≠ 0
  all_goals
    have hdne : ¬ d = 0 := fun hh => h1 (Or.inl hh)
  all_goals
    have hqne : ¬ q = 0 := fun hh => h1 (Or.inr hh)
  all_goals
    have hdpos : (0:ℝ) < (d : ℝ) := by
      have : (0:ℚ) < d := lt_of_le_of_ne hdQ (Ne.symm hdne)
      exact_mod_cast this
  all_goals
    have hspos : (0:ℝ) < Real.sqrt (d : ℝ) := Real.sqrt_pos.mpr hdpos
  -- branch: 0 < q, 0 ≤ p
  · refine ⟨fun _ => ?_, fun hE => absurd hE (by norm_num),
      fun hE => absurd hE (by norm_num)⟩
    have hq : (0:ℝ) < (q : ℝ) := by exact_mod_cast h4
    have hp : (0:ℝ) ≤ (p : ℝ) := by exact_mod_cast h5
    nlinarith [mul_pos hq hspos]
  -- branch: 0 < q, p < 0, p² < q²d
  · refine ⟨fun _ => ?_, fun hE => absurd hE (by norm_num),
      fun hE => absurd hE (by norm_num)⟩
    have hq : (0:ℝ) < (q : ℝ) := by exact_mod_cast h4
    have hp : (p : ℝ) < 0 := by exact_mod_cast (not_le.mp h5)
    have hlt : (p : ℝ) * p < (q : ℝ) * q * d := by exact_mod_cast h6
    nlinarith [mul_pos hq hspos, sq_nonneg ((q:ℝ) * Real.sqrt (d:ℝ) + p)]
  -- branch: 0 < q, p < 0, p² = q²d
  · refine ⟨fun hE => absurd hE (by norm_num), fun _ => ?_,
      fun hE => absurd hE (by norm_num)⟩
    have hq : (0:ℝ) < (q : ℝ) := by exact_mod_cast h4
    have hp : (p : ℝ) < 0 := by exact_mod_cast (not_le.mp h5)
    have heqR : (p : ℝ) * p = (q : ℝ) * q * d := by exact_mod_cast h7
    have hqs : (0:ℝ) < (q:ℝ) * Real.sqrt (d:ℝ) := mul_pos hq hspos
    have hfac : ((p:ℝ) + (q:ℝ) * Real.sqrt (d:ℝ)) *
        ((q:ℝ) * Real.sqrt (d:ℝ) - p) = 0 := by
      linear_combination hq2 - heqR
    rcases mul_eq_zero.mp hfac with h | h
    · exact h
    · exfalso
      have : (q:ℝ) * Real.sqrt (d:ℝ) = (p:ℝ) := by linarith
      linarith
  -- branch: 0 < q, p < 0, q²d < p²
  · refine ⟨fun hE => absurd hE (by norm_num), fun hE => absurd hE (by norm_num),
      fun _ => ?_⟩
    have hq : (0:ℝ) < (q : ℝ) := by exact_mod_cast h4
    have hp : (p : ℝ) < 0 := by exact_mod_cast (not_le.mp h5)
    have hgt : (q : ℝ) * q * d < (p : ℝ) * p := by
      have : q * q * d < p * p :=
        lt_of_le_of_ne (not_lt.mp h6) (fun hh => h7 hh.symm)
      exact_mod_cast this
    nlinarith [mul_pos hq hspos, sq_nonneg ((q:ℝ) * Real.sqrt (d:ℝ) + p)]
  -- branch: q < 0, p ≤ 0
  · refine ⟨fun hE => absurd hE (by norm_num), fun hE => absurd hE (by norm_num),
      fun _ => ?_⟩
    have hq : (q : ℝ) < 0 := by
      have : q < 0 := lt_of_le_of_ne (not_lt.mp h4) hqne
      exact_mod_cast this
    have hp : (p : ℝ) ≤ 0 := by exact_mod_cast h8
    nlinarith [mul_pos (neg_pos.mpr hq) hspos]
  -- branch: q < 0, 0 < p, p² < q²d
  · refine ⟨fun hE => absurd hE (by norm_num), fun hE => absurd hE (by norm_num),
      fun _ => ?_⟩
    have hq : (q : ℝ) < 0 := by
      have : q < 0 := lt_of_le_of_ne (not_lt.mp h4) hqne
      exact_mod_cast this
    have hp : (0:ℝ) < (p : ℝ) := by exact_mod_cast (not_le.mp h8)
    have hlt : (p : ℝ) * p < (q : ℝ) * q * d := by exact_mod_cast h9
    nlinarith [mul_pos (neg_pos.mpr hq) hspos,
      sq_nonneg ((q:ℝ) * Real.sqrt (d:ℝ) - p)]
  -- branch: q < 0, 0 < p, p² = q²d
  · refine ⟨fun hE => absurd hE (by norm_num), fun _ => ?_,
      fun hE => absurd hE (by norm_num)⟩
    have hq : (q : ℝ) < 0 := by
      have : q < 0 := lt_of_le_of_ne (not_lt.mp h4) hqne
      exact_mod_cast this
    have hp : (0:ℝ) < (p : ℝ) := by exact_mod_cast (not_le.mp h8)
    have heqR : (p : ℝ) * p = (q : ℝ) * q * d := by exact_mod_cast h10
    have hqs : (q:ℝ) * Real.sqrt (d:ℝ) < 0 :=
      mul_neg_of_neg_of_pos hq hspos
    have hfac : ((p:ℝ) + (q:ℝ) * Real.sqrt (d:ℝ)) *
        ((p:ℝ) - (q:ℝ) * Real.sqrt (d:ℝ)) = 0 := by
      linear_combination heqR - hq2
    rcases mul_eq_zero.mp hfac with h | h
    · exact h
    · exfalso
      have : (p:ℝ) = (q:ℝ) * Real.sqrt (d:ℝ) := by linarith
      linarith
  -- branch: q < 0, 0 < p, q²d < p²
  · refine ⟨fun _ => ?_, fun hE => absurd hE (by norm_num),
      fun hE => absurd hE (by norm_num)⟩
    have hq : (q : ℝ) < 0 := by
      have : q < 0 := lt_of_le_of_ne (not_lt.mp h4) hqne
      exact_mod_cast this
    have hp : (0:ℝ) < (p : ℝ) := by exact_mod_cast (not_le.mp h8)
    have hgt : (q : ℝ) * q * d < (p : ℝ) * p := by
      have : q * q * d < p * p :=
        lt_of_le_of_ne (not_lt.mp h9) (fun hh => h10 hh.symm)
      exact_mod_cast this
    nlinarith [mul_pos (neg_pos.mpr hq) hspos,
      sq_nonneg ((q:ℝ) * Real.sqrt (d:ℝ) - p)]

theorem Qs.toReal_nonneg_of_sgn (v : Qs) (hd : 0 ≤ v.d) (h : 0 ≤ v.sgn) :
    0 ≤ v.toReal := by
  rcases Qs.sgn_cases v with hs | hs | hs
  · exact le_of_lt ((Qs.sgn_spec v hd).1 hs)
  · exact le_of_eq ((Qs.sgn_spec v hd).2.1 hs).symm
  · rw [hs] at h; omega
  
theorem Qs.toReal_nonpos_of_sgn (v : Qs) (hd : 0 ≤ v.d) (h : v.sgn ≤ 0) :
    v.toReal ≤ 0 := by
  rcases Qs.sgn_cases v with hs | hs | hs
  · rw [hs] at h; omega
  · exact le_of_eq ((Qs.sgn_spec v hd).2.1 hs)
  · exact le_of_lt ((Qs.sgn_spec v hd).2.2 hs)

/-- The clamp computes exactly `min 1 (max 0 ·)` of the real value. -/
theorem Qs.toReal_clamp01 (v : Qs) (hd : 0 ≤ v.d) :
    (v.clamp01).toReal = min 1 (max 0 v.toReal) := by
  unfold Qs.clamp01
  by_cases hneg : v.sgn < 0
  · have hv : v.toReal ≤ 0 := Qs.toReal_nonpos_of_sgn v hd (le_of_lt hneg)
    simp only [hneg, if_true]
    have hz : ¬ 0 < (Qs.ofRat 0).sub1.sgn := by
      norm_num [Qs.ofRat, Qs.sub1, Qs.sgn]
    rw [if_neg hz, Qs.toReal_ofRat]
    rw [max_eq_left hv]
    norm_num
  · have hv : 0 ≤ v.toReal :=
      Qs.toReal_nonneg_of_sgn v hd (not_lt.mp hneg)
    simp only [hneg, if_false]
    by_cases hhi : 0 < v.sub1.sgn
    · have h1 : 0 < v.sub1.toReal := by
        rcases Qs.sgn_cases v.sub1 with hs | hs | hs
        · exact (Qs.sgn_spec v.sub1 hd).1 hs
        · rw [hs] at hhi; omega
        · rw [hs] at hhi; omega
      rw [Qs.toReal_sub1] at h1
      rw [if_pos hhi, Qs.toReal_ofRat]
      rw [max_eq_right hv, min_eq_left (by linarith)]
      norm_num
    · have h1 : v.sub1.toReal ≤ 0 :=
        Qs.toReal_nonpos_of_sgn v.sub1 hd (not_lt.mp hhi)
      rw [Qs.toReal_sub1] at h1
      rw [if_neg hhi]
      rw [max_eq_right hv, min_eq_right (by linarith)]

/-- `Curve::solve_t_for_x`, embedded exactly.  The source computes (in
`f64`, here exactly)

  `a = p0x - 2 p1x + p2x`, `b = -2 p0x + 2 p1x`, `c = p0x - x`,
  `t = 2 c / (-b - sqrt(b*b - 4 a c))`, returning `t.max(0.0).min(1.0)`.

The embedding follows the IEEE-754 evaluation of that expression:
* if the discriminant is negative, `sqrt` yields NaN, NaN propagates
  through the division, and `NaN.max(0.0).min(1.0)` is `0.0`;
* the denominator `-b - sqrt(disc)` is exactly zero iff `b ≤ 0` and
  `b² = disc`; then `2c / denom` is `NaN` for `c = 0` (clamped to 0).
  Otherwise the result is `±∞` whose sign is the sign of `2c` times the
  sign of the zero denominator: for `b = 0` the denominator is the
  negative zero `-0.0 - 0.0`, for `b < 0` it is the positive zero of
  `(-b) - sqrt(disc)` with `-b = sqrt(disc) > 0`; `+∞` clamps to 1 and
  `-∞` clamps to 0;
* otherwise the quotient is the finite real `2c / (-b - √disc)`, which
  equals `-c/b` when `b² = disc` (then `b > 0`, `√disc = b`) and
  otherwise `(-b + √disc) / (2a)` (rationalizing by the conjugate;
  `4ac = b² - disc ≠ 0` so `a ≠ 0`), and the clamp is the real
  `max 0` / `min 1` (`Qs.clamp01`). -/
def Curve.solve_t_for_x (c : Curve ℚ) (x : ℚ) : Qs :=
  let p0x := (c.endpoints 0).x
  let p1x := c.control_point.x
  let p2x := (c.endpoints 1).x
  let a := p0x - 2 * p1x + p2x
  let b := -2 * p0x + 2 * p1x
  let cc := p0x - x
  let disc := b * b - 4 * a * cc
  if disc < 0 then
    Qs.ofRat 0
  else if b ≤ 0 ∧ b * b = disc then
    (if cc = 0 then Qs.ofRat 0
     else if b = 0 then (if 0 < cc then Qs.ofRat 0 else Qs.ofRat 1)
     else (if 0 < cc then Qs.ofRat 1 else Qs.ofRat 0))
  else if b * b = disc then Qs.clamp01 (Qs.ofRat (-cc / b))
  else Qs.clamp01 ⟨-b / (2 * a), 1 / (2 * a), disc⟩

/-- `Curve::solve_y_for_x` samples the y channel at the solved parameter;
`sampleQs` below mirrors `Curve::sample` with symbolic `Qs` arithmetic. -/
def Qs.add (u v : Qs) : Qs := ⟨u.p + v.p, u.q + v.q, u.d⟩

def Qs.mul (u v : Qs) : Qs :=
  ⟨u.p * v.p + u.q * v.q * u.d, u.p * v.q + u.q * v.p, u.d⟩

def Qs.ofRatD (d r : ℚ) : Qs := ⟨r, 0, d⟩

/-- `(1 - t) * u + t * v` in `Qs` arithmetic (the `lerp` of the source). -/
def Qs.lerp (u v t : Qs) : Qs :=
  (((Qs.ofRatD t.d 1).add (Qs.mul (Qs.ofRatD t.d (-1)) t)).mul u).add (t.mul v)

/-- `Curve::sample` at a symbolic parameter (as an (x, y) pair). -/
def Curve.sampleQs (c : Curve ℚ) (t : Qs) : Qs × Qs :=
  let p0 := c.endpoints 0
  let p1 := c.control_point
  let p2 := c.endpoints 1
  (Qs.lerp (Qs.lerp (Qs.ofRatD t.d p0.x) (Qs.ofRatD t.d p1.x) t)
           (Qs.lerp (Qs.ofRatD t.d p1.x) (Qs.ofRatD t.d p2.x) t) t,
   Qs.lerp (Qs.lerp (Qs.ofRatD t.d p0.y) (Qs.ofRatD t.d p1.y) t)
           (Qs.lerp (Qs.ofRatD t.d p1.y) (Qs.ofRatD t.d p2.y) t) t)

/-- `Curve::solve_y_for_x`: `self.sample(self.solve_t_for_x(x)).y`. -/
def Curve.solve_y_for_x (c : Curve ℚ) (x : ℚ) : Qs :=
  (c.sampleQs (c.solve_t_for_x x)).2

/-- The clamp preserves nonnegativity of the discriminant component. -/
theorem Qs.clamp01_d_nonneg (v : Qs) (hd : 0 ≤ v.d) : 0 ≤ (v.clamp01).d := by
  simp only [Qs.clamp01]
  split_ifs <;> simp [Qs.ofRat, hd]

/-- The solver's result always carries a nonnegative discriminant. -/
theorem Curve.solve_t_for_x_d_nonneg (c : Curve ℚ) (x : ℚ) :
    0 ≤ (c.solve_t_for_x x).d := by
  simp only [Curve.solve_t_for_x]
  split_ifs with h1 h2 h3 h4 h5 h6 h7
  · norm_num [Qs.ofRat]
  · norm_num [Qs.ofRat]
  · norm_num [Qs.ofRat]
  · norm_num [Qs.ofRat]
  · norm_num [Qs.ofRat]
  · norm_num [Qs.ofRat]
  · exact Qs.clamp01_d_nonneg _ (by norm_num [Qs.ofRat])
  · exact Qs.clamp01_d_nonneg _ (le_of_not_lt h1)

/-- Bounds of the clamped value. -/
theorem Qs.clamp01_toReal_bounds (v : Qs) (hd : 0 ≤ v.d) :
    0 ≤ (v.clamp01).toReal ∧ (v.clamp01).toReal ≤ 1 := by
  rw [Qs.toReal_clamp01 v hd]
  constructor
  · exact le_min (by norm_num) (le_max_left 0 _)
  · exact min_le_left 1 _

/-- Shared bound: the solver's result denotes a real number in `[0, 1]`. -/
theorem Curve.solve_t_for_x_bounds (c : Curve ℚ) (x : ℚ) :
    0 ≤ (c.solve_t_for_x x).toReal ∧ (c.solve_t_for_x x).toReal ≤ 1 := by
  simp only [Curve.solve_t_for_x]
  split_ifs with h1 h2 h3 h4 h5 h6 h7
  · rw [Qs.toReal_ofRat]; norm_num
  · rw [Qs.toReal_ofRat]; norm_num
  · rw [Qs.toReal_ofRat]; norm_num
  · rw [Qs.toReal_ofRat]; norm_num
  · rw [Qs.toReal_ofRat]; norm_num
  · rw [Qs.toReal_ofRat]; norm_num
  · exact Qs.clamp01_toReal_bounds _ (by norm_num [Qs.ofRat])
  · exact Qs.clamp01_toReal_bounds _ (le_of_not_lt h1)

/-- C1: for every curve (finite coordinates) and every input `x`,
`solve_t_for_x(x)` denotes a real value inside the closed interval
`[0, 1]`: the final clamp `t.max(0.0).min(1.0)` guarantees this whatever
the unclamped root is, so even for `x` outside the curve's x-range the
result is a boundary value and never outside `[0, 1]`. -/
theorem solve_t_for_x_result_clamped (c : Curve ℚ) (x : ℚ) :
    0 ≤ (c.solve_t_for_x x).toReal ∧ (c.solve_t_for_x x).toReal ≤ 1 :=
  Curve.solve_t_for_x_bounds c x

/-- C10: `solve_t_for_x` is total even on fully degenerate curves.  When
both quadratic coefficients vanish (`a = 0` and `b = 0`, e.g. all three
x-coordinates equal) the IEEE evaluation produces `2c / -0.0 = ∓∞` (or
NaN when additionally `c = 0`, i.e. `x = p0x`); the final clamp absorbs
these, so the function returns the finite boundary value 0 or 1 (0 in
the NaN case) and never fails. -/
theorem solve_t_for_x_degenerate_total (p0 p1 p2 : Point2D ℚ) (x : ℚ)
    (ha : p0.x - 2 * p1.x + p2.x = 0) (hb : -2 * p0.x + 2 * p1.x = 0) :
    ((Curve.new p0 p1 p2).solve_t_for_x x = Qs.ofRat 0 ∨
      (Curve.new p0 p1 p2).solve_t_for_x x = Qs.ofRat 1) ∧
    (p0.x = x → (Curve.new p0 p1 p2).solve_t_for_x x = Qs.ofRat 0) := by
  have he0 : ((Curve.new p0 p1 p2).endpoints 0).x = p0.x := rfl
  have he1 : ((Curve.new p0 p1 p2).endpoints 1).x = p2.x := rfl
  have hcp : (Curve.new p0 p1 p2).control_point.x = p1.x := rfl
  simp only [Curve.solve_t_for_x, he0, he1, hcp]
  rw [hb, ha]
  rw [(by ring : (0:ℚ) * 0 - 4 * 0 * (p0.x - x) = 0)]
  rw [if_neg (lt_irrefl (0:ℚ))]
  rw [if_pos (⟨le_refl (0:ℚ), by norm_num⟩ : (0:ℚ) ≤ 0 ∧ (0:ℚ) * 0 = 0)]
  by_cases hc : p0.x - x = 0
  · rw [if_pos hc]
    exact ⟨Or.inl rfl, fun _ => rfl⟩
  · rw [if_neg hc, if_pos rfl]
    refine ⟨?_, fun hx => absurd (by rw [hx]; ring) hc⟩
    by_cases hlt : 0 < p0.x - x
    · rw [if_pos hlt]
      exact Or.inl rfl
    · rw [if_neg hlt]
      exact Or.inr rfl

/-- Witness for C10: the fully degenerate curve with all x-coordinates 5,
queried at `x = 3`, satisfies the hypotheses and lands on a boundary
value. -/
theorem solve_t_for_x_degenerate_total_witness :
    ((5:ℚ) - 2 * 5 + 5 = 0) ∧ ((-2 * (5:ℚ) + 2 * 5 = 0)) ∧
    ((Curve.new ⟨5, 0⟩ ⟨5, 0⟩ ⟨5, 0⟩).solve_t_for_x 3 = Qs.ofRat 0 ∨
      (Curve.new ⟨5, 0⟩ ⟨5, 0⟩ ⟨5, 0⟩).solve_t_for_x 3 = Qs.ofRat 1) :=
  ⟨by norm_num, by norm_num,
    (solve_t_for_x_degenerate_total ⟨5, 0⟩ ⟨5, 0⟩ ⟨5, 0⟩ 3
      (by norm_num) (by norm_num)).1⟩

/-- In the generic branch the symbolic root equals the Citardauq quotient
`2c / (-b - √(b² - 4ac))`. -/
theorem Qs.toReal_root (a b cc disc : ℚ) (hdisc : disc = b * b - 4 * a * cc)
    (hd : 0 ≤ disc) (hne : b * b ≠ disc) :
    (Qs.mk (-b / (2 * a)) (1 / (2 * a)) disc).toReal =
      2 * (cc : ℝ) / (-(b : ℝ) - Real.sqrt (disc : ℝ)) := by
  have ha : a ≠ 0 := by
    intro h0
    apply hne
    rw [hdisc, h0]
    ring
  have haR : (a : ℝ) ≠ 0 := by exact_mod_cast ha
  have h2a : (2 : ℝ) * (a : ℝ) ≠ 0 := mul_ne_zero two_ne_zero haR
  have hdR : (0:ℝ) ≤ (disc : ℝ) := by exact_mod_cast hd
  have hs2 : Real.sqrt (disc : ℝ) * Real.sqrt (disc : ℝ) = (disc : ℝ) :=
    Real.mul_self_sqrt hdR
  have hdiscR : (disc : ℝ) = (b : ℝ) * b - 4 * a * cc := by exact_mod_cast hdisc
  have hden : -(b : ℝ) - Real.sqrt (disc : ℝ) ≠ 0 := by
    intro h0
    have hsb : Real.sqrt ((disc : ℚ) : ℝ) = -(b : ℝ) := by linarith
    have hD : (disc : ℝ) = ((b : ℝ) * b) := by rw [← hs2, hsb]; ring
    have : disc = b * b := by exact_mod_cast hD
    exact hne this.symm
  calc (Qs.mk (-b / (2 * a)) (1 / (2 * a)) disc).toReal
      = (-(b : ℝ) + Real.sqrt (disc : ℝ)) / (2 * (a : ℝ)) := by
        simp only [Qs.toReal]
        push_cast
        ring
    _ = 2 * (cc : ℝ) / (-(b : ℝ) - Real.sqrt (disc : ℝ)) := by
        rw [div_eq_div_iff h2a hden]
        linear_combination -hs2 - hdiscR

/-- C2: `solve_t_for_x(x)` forms its coefficients as `a = x0 - 2 x1 + x2`,
`b = -2 x0 + 2 x1`, `c = x0 - x` (exact arithmetic here standing for the
exact double-precision widening of the single-precision inputs), computes
the root by the Citardauq quotient `t = 2c / (-b - √(b² - 4ac))` — not the
textbook `(-b + √(b² - 4ac)) / (2a)` evaluation — and returns it clamped
by `max 0` then `min 1`.  Stated for inputs where the float expression is
finite (nonnegative discriminant and nonzero denominator). -/
theorem solve_t_for_x_citardauq_form (c : Curve ℚ) (x a b cc : ℚ)
    (hA : a = (c.endpoints 0).x - 2 * c.control_point.x + (c.endpoints 1).x)
    (hB : b = -2 * (c.endpoints 0).x + 2 * c.control_point.x)
    (hC : cc = (c.endpoints 0).x - x)
    (hdisc : 0 ≤ (b : ℝ) ^ 2 - 4 * (a : ℝ) * (cc : ℝ))
    (hden : -(b : ℝ) - Real.sqrt ((b : ℝ) ^ 2 - 4 * (a : ℝ) * (cc : ℝ)) ≠ 0) :
    (c.solve_t_for_x x).toReal =
      min 1 (max 0
        (2 * (cc : ℝ) / (-(b : ℝ) - Real.sqrt ((b : ℝ) ^ 2 - 4 * (a : ℝ) * (cc : ℝ))))) := by
  have hcast : (b : ℝ) ^ 2 - 4 * (a : ℝ) * (cc : ℝ) = ((b * b - 4 * a * cc : ℚ) : ℝ) := by
    push_cast
    ring
  rw [hcast] at hdisc hden ⊢
  simp only [Curve.solve_t_for_x]
  rw [← hB, ← hA, ← hC]
  have hD : (0:ℚ) ≤ b * b - 4 * a * cc := by exact_mod_cast hdisc
  split_ifs with h1 h2 h3 h4 h5 h6 h7
  · exact absurd h1 (not_lt.mpr hD)
  all_goals try
    (exfalso
     apply hden
     have hDR : ((b * b - 4 * a * cc : ℚ) : ℝ) = (-(b : ℝ)) ^ 2 := by
       rw [← h2.2]
       push_cast
       ring
     rw [hDR, Real.sqrt_sq (by exact_mod_cast neg_nonneg.mpr h2.1)]
     ring)
  -- branch with b * b = disc (and hence b > 0): the root is -c/b
  · have hb : 0 < b := by
      rcases not_and_or.mp h2 with h | h
      · exact lt_of_not_le h
      · exact absurd h7 h
    have hbR : (0:ℝ) < (b : ℝ) := by exact_mod_cast hb
    have hbne : (b : ℝ) ≠ 0 := ne_of_gt hbR
    have hDR : ((b * b - 4 * a * cc : ℚ) : ℝ) = ((b : ℝ)) ^ 2 := by
      rw [← h7]
      push_cast
      ring
    rw [Qs.toReal_clamp01 (Qs.ofRat (-cc / b)) (by norm_num [Qs.ofRat]), Qs.toReal_ofRat]
    rw [hDR, Real.sqrt_sq (le_of_lt hbR)]
    have hval : ((-cc / b : ℚ) : ℝ) = 2 * (cc : ℝ) / (-(b : ℝ) - (b : ℝ)) := by
      push_cast
      rw [div_eq_div_iff hbne (by linarith : -(b:ℝ) - (b:ℝ) ≠ 0)]
      ring
    rw [hval]
  -- generic branch: the root is (-b + √disc) / (2a) = 2c / (-b - √disc)
  · rw [Qs.toReal_clamp01 (Qs.mk (-b / (2 * a)) (1 / (2 * a)) (b * b - 4 * a * cc))
        (le_of_not_lt h1)]
    rw [Qs.toReal_root a b cc (b * b - 4 * a * cc) rfl (le_of_not_lt h1) h7]

/-- Witness for C2: the curve with x-coordinates 0, 5, 10 queried at
`x = 3` has `a = 0`, `b = 10`, `c = -3`, positive discriminant `100` and
denominator `-20`; the solver returns `3/10 = 2(-3)/(-20)` clamped
(a no-op). -/
theorem solve_t_for_x_citardauq_form_witness :
    ((0:ℚ) = (0:ℚ) - 2 * 5 + 10) ∧
    (0:ℝ) ≤ ((10:ℚ) : ℝ) ^ 2 - 4 * ((0:ℚ) : ℝ) * (((-3:ℚ)) : ℝ) ∧
    (-(((10:ℚ)) : ℝ) - Real.sqrt (((10:ℚ) : ℝ) ^ 2 - 4 * ((0:ℚ) : ℝ) * (((-3:ℚ)) : ℝ)) ≠ 0) ∧
    ((Curve.new ⟨0, 0⟩ ⟨5, 0⟩ ⟨10, 0⟩).solve_t_for_x 3).toReal =
      min 1 (max 0
        (2 * (((-3:ℚ)) : ℝ) /
          (-(((10:ℚ)) : ℝ) - Real.sqrt (((10:ℚ) : ℝ) ^ 2 - 4 * ((0:ℚ) : ℝ) * (((-3:ℚ)) : ℝ))))) := by
  have hsq : Real.sqrt (((10:ℚ) : ℝ) ^ 2 - 4 * ((0:ℚ) : ℝ) * (((-3:ℚ)) : ℝ)) = 10 := by
    rw [show ((10:ℚ) : ℝ) ^ 2 - 4 * ((0:ℚ) : ℝ) * (((-3:ℚ)) : ℝ) = (10:ℝ) ^ 2 from by push_cast; ring]
    exact Real.sqrt_sq (by norm_num)
  refine ⟨by norm_num, by push_cast; norm_num, by rw [hsq]; push_cast; norm_num, ?_⟩
  exact solve_t_for_x_citardauq_form (Curve.new ⟨0, 0⟩ ⟨5, 0⟩ ⟨10, 0⟩) 3 0 10 (-3)
    (by norm_num [Curve.new, Matrix.cons_val_zero, Matrix.cons_val_one, Matrix.head_cons])
    (by norm_num [Curve.new, Matrix.cons_val_zero, Matrix.cons_val_one, Matrix.head_cons])
    (by norm_num [Curve.new, Matrix.cons_val_zero, Matrix.cons_val_one, Matrix.head_cons])
    (by push_cast; norm_num)
    (by rw [hsq]; push_cast; norm_num)

/-- De Casteljau: the first part of a subdivision at `t` is the original
curve reparametrized on `[0, t]`. -/
theorem Curve.subdivide_fst_sample {α : Type} [CommRing α] (c : Curve α) (t s : α) :
    ((c.subdivide t).1).sample s = c.sample (t * s) := by
  ext <;>
    simp [Curve.subdivide, Curve.sample, Curve.new, Point2D.lerp,
      Matrix.cons_val_zero, Matrix.cons_val_one, Matrix.head_cons] <;>
    ring

/-- De Casteljau: the second part of a subdivision at `t` is the original
curve reparametrized on `[t, 1]`. -/
theorem Curve.subdivide_snd_sample {α : Type} [CommRing α] (c : Curve α) (t s : α) :
    ((c.subdivide t).2).sample s = c.sample (t + s * (1 - t)) := by
  ext <;>
    simp [Curve.subdivide, Curve.sample, Curve.new, Point2D.lerp,
      Matrix.cons_val_zero, Matrix.cons_val_one, Matrix.head_cons] <;>
    ring

theorem Curve.sample_zero' {α : Type} [CommRing α] (c : Curve α) :
    c.sample 0 = c.endpoints 0 := by
  ext <;> simp [Curve.sample, Point2D.lerp]

theorem Curve.sample_one' {α : Type} [CommRing α] (c : Curve α) :
    c.sample 1 = c.endpoints 1 := by
  ext <;> simp [Curve.sample, Point2D.lerp]

/-- C5 as stated is false: for a curve that is not monotone in x the two
parts returned by `subdivide_at_x` have overlapping x-ranges.  The curve
with x-coordinates 0 (start), 2 (control), 1 (end) rises to x = 4/3 and
comes back; querying `x = 5/4` solves to `t = 1/2`, and the "left" part
reaches x = 5/4 at its end while the "right" part ends at x = 1 < 5/4. -/
theorem subdivide_at_x_ordering_counterexample :
    ((((Curve.new ⟨0, 0⟩ ⟨2, 0⟩ ⟨1, 0⟩ : Curve ℚ).map Rat.cast).subdivide_at_x
        (((Curve.new ⟨0, 0⟩ ⟨2, 0⟩ ⟨1, 0⟩ : Curve ℚ).solve_t_for_x (5/4)).toReal)).1.sample
        1).x = 5/4 ∧
    ((((Curve.new ⟨0, 0⟩ ⟨2, 0⟩ ⟨1, 0⟩ : Curve ℚ).map Rat.cast).subdivide_at_x
        (((Curve.new ⟨0, 0⟩ ⟨2, 0⟩ ⟨1, 0⟩ : Curve ℚ).solve_t_for_x (5/4)).toReal)).2.sample
        1).x = 1 ∧
    ¬ ((5/4 : ℝ) ≤ 1) := by
  have ht0 : ((Curve.new ⟨0, 0⟩ ⟨2, 0⟩ ⟨1, 0⟩ : Curve ℚ).solve_t_for_x (5/4)).toReal
      = 1/2 := by
    rw [show (Curve.new ⟨0, 0⟩ ⟨2, 0⟩ ⟨1, 0⟩ : Curve ℚ).solve_t_for_x (5/4) =
        Qs.mk (2/3) (-1/6) 1 from by
      norm_num [Curve.solve_t_for_x, Curve.new, Qs.clamp01, Qs.sgn, Qs.sub1, Qs.ofRat,
        Matrix.cons_val_zero, Matrix.cons_val_one, Matrix.head_cons]]
    simp [Qs.toReal, Real.sqrt_one]
    norm_num
  rw [ht0]
  refine ⟨?_, ?_, by norm_num⟩ <;>
    norm_num [Curve.subdivide_at_x, Curve.subdivide, Curve.sample, Curve.new,
      Curve.map, Point2D.map, Point2D.lerp,
      Matrix.cons_val_zero, Matrix.cons_val_one, Matrix.head_cons]

/-- C5 (amended): for curves whose x-coordinate is monotone in `t` on
`[0, 1]` (in either direction — the amendment the counterexample forces),
`subdivide_at_x` keeps the parts in subdivision order when
`endpoints[0].x ≤ endpoints[1].x` and swaps them otherwise, and the
returned pair `(left, right)` has left's x-range entirely ≤ right's
x-range. -/
theorem subdivide_at_x_ordering_monotone (c : Curve ℚ) (x : ℚ)
    (hmono :
      MonotoneOn (fun t : ℝ => ((c.map Rat.cast).sample t).x) (Set.Icc 0 1) ∨
      AntitoneOn (fun t : ℝ => ((c.map Rat.cast).sample t).x) (Set.Icc 0 1)) :
    ((c.map Rat.cast).subdivide_at_x ((c.solve_t_for_x x).toReal) =
      if (c.endpoints 0).x ≤ (c.endpoints 1).x
      then (c.map Rat.cast).subdivide ((c.solve_t_for_x x).toReal)
      else (((c.map Rat.cast).subdivide ((c.solve_t_for_x x).toReal)).2,
            ((c.map Rat.cast).subdivide ((c.solve_t_for_x x).toReal)).1)) ∧
    (∀ s ∈ Set.Icc (0:ℝ) 1, ∀ u ∈ Set.Icc (0:ℝ) 1,
      ((((c.map Rat.cast).subdivide_at_x ((c.solve_t_for_x x).toReal)).1).sample s).x ≤
      ((((c.map Rat.cast).subdivide_at_x ((c.solve_t_for_x x).toReal)).2).sample u).x) := by
  obtain ⟨ht00, ht01⟩ := Curve.solve_t_for_x_bounds c x
  constructor
  · have hc0 : ((c.map Rat.cast).endpoints 0).x = (((c.endpoints 0).x : ℚ) : ℝ) := rfl
    have hc1 : ((c.map Rat.cast).endpoints 1).x = (((c.endpoints 1).x : ℚ) : ℝ) := rfl
    simp only [Curve.subdivide_at_x, hc0, hc1, Rat.cast_le]
  · intro s hs u hu
    obtain ⟨hs0, hs1⟩ := hs
    obtain ⟨hu0, hu1⟩ := hu
    have hmemt0 : (c.solve_t_for_x x).toReal ∈ Set.Icc (0:ℝ) 1 := ⟨ht00, ht01⟩
    have hm1 : ∀ v : ℝ, 0 ≤ v → v ≤ 1 →
        (c.solve_t_for_x x).toReal * v ∈ Set.Icc (0:ℝ) 1 := by
      intro v hv0 hv1
      constructor
      · nlinarith
      · nlinarith
    have hm2 : ∀ v : ℝ, 0 ≤ v → v ≤ 1 →
        (c.solve_t_for_x x).toReal + v * (1 - (c.solve_t_for_x x).toReal) ∈
          Set.Icc (0:ℝ) 1 := by
      intro v hv0 hv1
      constructor
      · nlinarith
      · nlinarith
    have hm3 : ∀ v : ℝ, 0 ≤ v → v ≤ 1 →
        (c.solve_t_for_x x).toReal * v ≤ (c.solve_t_for_x x).toReal := by
      intro v hv0 hv1
      nlinarith
    have hm4 : ∀ v : ℝ, 0 ≤ v → v ≤ 1 →
        (c.solve_t_for_x x).toReal ≤
          (c.solve_t_for_x x).toReal + v * (1 - (c.solve_t_for_x x).toReal) := by
      intro v hv0 hv1
      nlinarith
    have hmem0 : (0:ℝ) ∈ Set.Icc (0:ℝ) 1 := ⟨le_refl 0, zero_le_one⟩
    have hmem1 : (1:ℝ) ∈ Set.Icc (0:ℝ) 1 := ⟨zero_le_one, le_refl 1⟩
    simp only [Curve.subdivide_at_x]
    split_ifs with hcond
    · rw [Curve.subdivide_fst_sample, Curve.subdivide_snd_sample]
      rcases hmono with hm | ha
      · exact hm (hm1 s hs0 hs1) (hm2 u hu0 hu1)
          (le_trans (hm3 s hs0 hs1) (hm4 u hu0 hu1))
      · have hdown : ((c.map Rat.cast).sample ((c.solve_t_for_x x).toReal * s)).x ≤
            ((c.map Rat.cast).sample (0:ℝ)).x :=
          ha hmem0 (hm1 s hs0 hs1) (hm1 s hs0 hs1).1
        have hup : ((c.map Rat.cast).sample (1:ℝ)).x ≤
            ((c.map Rat.cast).sample
              ((c.solve_t_for_x x).toReal + u * (1 - (c.solve_t_for_x x).toReal))).x :=
          ha (hm2 u hu0 hu1) hmem1 (hm2 u hu0 hu1).2
        rw [Curve.sample_zero'] at hdown
        rw [Curve.sample_one'] at hup
        exact le_trans hdown (le_trans hcond hup)
    · rw [Curve.subdivide_fst_sample, Curve.subdivide_snd_sample]
      rcases hmono with hm | ha
      · exfalso
        apply hcond
        have h01 : ((c.map Rat.cast).sample (0:ℝ)).x ≤
            ((c.map Rat.cast).sample (1:ℝ)).x :=
          hm hmem0 hmem1 zero_le_one
        rw [Curve.sample_zero', Curve.sample_one'] at h01
        exact h01
      · exact le_trans
          (ha hmemt0 (hm2 s hs0 hs1) (hm4 s hs0 hs1))
          (ha (hm1 u hu0 hu1) hmemt0 (hm3 u hu0 hu1))

/-- Witness for the amended C5: the x-monotone curve with x-coordinates
0, 5, 10 queried at `x = 3` satisfies the monotonicity hypothesis and its
parts are ordered at `s = u = 1`. -/
theorem subdivide_at_x_ordering_monotone_witness :
    (MonotoneOn
      (fun t : ℝ => (((Curve.new ⟨0, 0⟩ ⟨5, 0⟩ ⟨10, 0⟩ : Curve ℚ).map Rat.cast).sample t).x)
      (Set.Icc 0 1) ∨
     AntitoneOn
      (fun t : ℝ => (((Curve.new ⟨0, 0⟩ ⟨5, 0⟩ ⟨10, 0⟩ : Curve ℚ).map Rat.cast).sample t).x)
      (Set.Icc 0 1)) ∧
    (((((Curve.new ⟨0, 0⟩ ⟨5, 0⟩ ⟨10, 0⟩ : Curve ℚ).map Rat.cast).subdivide_at_x
        (((Curve.new ⟨0, 0⟩ ⟨5, 0⟩ ⟨10, 0⟩ : Curve ℚ).solve_t_for_x 3).toReal)).1.sample
        1).x ≤
     ((((Curve.new ⟨0, 0⟩ ⟨5, 0⟩ ⟨10, 0⟩ : Curve ℚ).map Rat.cast).subdivide_at_x
        (((Curve.new ⟨0, 0⟩ ⟨5, 0⟩ ⟨10, 0⟩ : Curve ℚ).solve_t_for_x 3).toReal)).2.sample
        1).x) := by
  have hmono : MonotoneOn
      (fun t : ℝ => (((Curve.new ⟨0, 0⟩ ⟨5, 0⟩ ⟨10, 0⟩ : Curve ℚ).map Rat.cast).sample t).x)
      (Set.Icc 0 1) := by
    intro a ha b hb hab
    simp only [Curve.sample, Curve.map, Curve.new, Point2D.map, Point2D.lerp,
      Matrix.cons_val_zero, Matrix.cons_val_one, Matrix.head_cons]
    push_cast
    nlinarith
  exact ⟨Or.inl hmono,
    (subdivide_at_x_ordering_monotone (Curve.new ⟨0, 0⟩ ⟨5, 0⟩ ⟨10, 0⟩) 3
      (Or.inl hmono)).2 1 ⟨zero_le_one, le_refl 1⟩ 1 ⟨zero_le_one, le_refl 1⟩⟩

/-- A quadratic `A t² + B t + C` that is non-decreasing on `[0, 1]` has
`0 ≤ B` (derivative at 0) and `0 ≤ 2A + B` (derivative at 1). -/
theorem monotoneOn_quadratic_coeffs (A B C : ℝ)
    (hm : MonotoneOn (fun t : ℝ => A * t ^ 2 + B * t + C) (Set.Icc 0 1)) :
    0 ≤ B ∧ 0 ≤ 2 * A + B := by
  have hQ : ∀ t : ℝ, 0 < t → t ≤ 1 → 0 ≤ A * t + B := by
    intro t ht0 ht1
    have h := hm (Set.mem_Icc.mpr ⟨le_refl 0, zero_le_one⟩)
      (Set.mem_Icc.mpr ⟨le_of_lt ht0, ht1⟩) (le_of_lt ht0)
    simp only at h
    by_contra hneg
    push_neg at hneg
    nlinarith [mul_neg_of_pos_of_neg ht0 hneg]
  have hQ1 : ∀ t : ℝ, 0 ≤ t → t < 1 → 0 ≤ A * (1 + t) + B := by
    intro t ht0 ht1
    have h := hm (Set.mem_Icc.mpr ⟨ht0, le_of_lt ht1⟩)
      (Set.mem_Icc.mpr ⟨zero_le_one, le_refl 1⟩) (le_of_lt ht1)
    simp only at h
    by_contra hneg
    push_neg at hneg
    have h1t : 0 < 1 - t := by linarith
    nlinarith [mul_neg_of_pos_of_neg h1t hneg]
  constructor
  · rcases lt_or_le A 0 with hA | hA
    · have := hQ 1 one_pos (le_refl 1)
      linarith
    · rcases eq_or_lt_of_le hA with hA0 | hApos
      · have := hQ 1 one_pos (le_refl 1)
        rw [← hA0] at this
        linarith
      · by_contra hB
        push_neg at hB
        have ht0 : (0:ℝ) < min 1 (-B / (2 * A)) :=
          lt_min one_pos (div_pos (by linarith) (by linarith))
        have ht1 : min 1 (-B / (2 * A)) ≤ 1 := min_le_left _ _
        have hfr : A * (-B / (2 * A)) = -B / 2 := by
          field_simp
          ring
        have hAt : A * min 1 (-B / (2 * A)) ≤ -B / 2 := by
          calc A * min 1 (-B / (2 * A)) ≤ A * (-B / (2 * A)) :=
                mul_le_mul_of_nonneg_left (min_le_right _ _) (le_of_lt hApos)
            _ = -B / 2 := hfr
        have := hQ _ ht0 ht1
        linarith
  · rcases lt_or_le 0 A with hApos | hA
    · have := hQ1 0 (le_refl 0) one_pos
      nlinarith
    · rcases eq_or_lt_of_le hA with hA0 | hAneg
      · have := hQ1 0 (le_refl 0) one_pos
        rw [hA0] at this
        nlinarith
      · by_contra h2
        push_neg at h2
        have hu0 : (0:ℝ) < min 1 (-(2 * A + B) / (2 * (-A))) :=
          lt_min one_pos (div_pos (by linarith) (by linarith))
        have hu1 : min 1 (-(2 * A + B) / (2 * (-A))) ≤ 1 := min_le_left _ _
        have hAne : A ≠ 0 := ne_of_lt hAneg
        have hfr : (-A) * (-(2 * A + B) / (2 * (-A))) = -(2 * A + B) / 2 := by
          field_simp
          ring
        have hAu : (-A) * min 1 (-(2 * A + B) / (2 * (-A))) ≤ -(2 * A + B) / 2 := by
          calc (-A) * min 1 (-(2 * A + B) / (2 * (-A)))
              ≤ (-A) * (-(2 * A + B) / (2 * (-A))) :=
                mul_le_mul_of_nonneg_left (min_le_right _ _) (by linarith)
            _ = -(2 * A + B) / 2 := hfr
        have hmem0 : (0:ℝ) ≤ 1 - min 1 (-(2 * A + B) / (2 * (-A))) := by linarith
        have hmem1 : 1 - min 1 (-(2 * A + B) / (2 * (-A))) < 1 := by linarith
        have := hQ1 _ hmem0 hmem1
        nlinarith

/-- The x channel of a sampled (real-interpreted) curve is the quadratic
with the solver's coefficients. -/
theorem Curve.sampleX_poly (c : Curve ℚ) (t : ℝ) :
    ((c.map Rat.cast).sample t).x =
      (((c.endpoints 0).x - 2 * c.control_point.x + (c.endpoints 1).x : ℚ) : ℝ) * t ^ 2 +
      ((-2 * (c.endpoints 0).x + 2 * c.control_point.x : ℚ) : ℝ) * t +
      (((c.endpoints 0).x : ℚ) : ℝ) := by
  simp only [Curve.sample, Curve.map, Point2D.map, Point2D.lerp]
  push_cast
  ring

/-- Pure algebra behind the generic Citardauq branch: the value `V` with
`2AV = S - B` (the root `(-B + S)/(2A)`, `S = √(B² - 4AC)`) lies in
`[0, 1]` and solves the quadratic, under the coefficient signs of a
curve non-decreasing in x and a query inside the x-range. -/
theorem citardauq_root_bounds (A B Cc S V : ℝ) (hS0 : 0 ≤ S)
    (hS2 : S * S = B * B - 4 * A * Cc) (hA : A ≠ 0) (hCc : Cc < 0)
    (hB : 0 ≤ B) (hSum : 0 ≤ A + B + Cc)
    (hveq : 2 * A * V + B - S = 0) :
    0 ≤ V ∧ V ≤ 1 ∧ A * V ^ 2 + B * V + Cc = 0 := by
  have hroot : A * V ^ 2 + B * V + Cc = 0 := by
    have h4 : 4 * A * (A * V ^ 2 + B * V + Cc) = 0 := by
      linear_combination (2 * A * V + B + S) * hveq + hS2
    rcases mul_eq_zero.mp h4 with h | h
    · exact absurd (by linarith : A = 0) hA
    · exact h
  rcases lt_or_gt_of_ne hA with hAneg | hApos
  · -- A < 0: then A·Cc > 0, so S < B, and 4A(A+B+Cc) ≤ 0 gives 2A+B ≤ S
    have hac : 0 < A * Cc := mul_pos_of_neg_of_neg hAneg hCc
    have hSB : S ≤ B := by nlinarith
    have hS2AB : 2 * A + B ≤ S := by nlinarith [mul_nonpos_of_nonpos_of_nonneg (le_of_lt hAneg) hSum]
    refine ⟨?_, ?_, hroot⟩
    · nlinarith
    · nlinarith
  · -- 0 < A: then A·Cc < 0, so B < S, and 4A(A+B+Cc) ≥ 0 gives S ≤ 2A+B
    have hac : A * Cc < 0 := mul_neg_of_pos_of_neg hApos hCc
    have hSB : B ≤ S := by nlinarith
    have hS2AB : S ≤ 2 * A + B := by nlinarith [mul_nonneg (le_of_lt hApos) hSum]
    refine ⟨?_, ?_, hroot⟩
    · nlinarith
    · nlinarith

theorem Qs.toReal_ofRatD (d r : ℚ) : (Qs.ofRatD d r).toReal = (r : ℝ) := by
  simp [Qs.toReal, Qs.ofRatD]

theorem Qs.toReal_add (u v : Qs) (h : u.d = v.d) :
    (u.add v).toReal = u.toReal + v.toReal := by
  simp only [Qs.toReal, Qs.add, h]
  push_cast
  ring

theorem Qs.toReal_mul (u v : Qs) (h : u.d = v.d) (hd : 0 ≤ v.d) :
    (u.mul v).toReal = u.toReal * v.toReal := by
  have hdR : (0:ℝ) ≤ ((v.d : ℚ) : ℝ) := by exact_mod_cast hd
  have hs2 : Real.sqrt ((v.d : ℚ) : ℝ) * Real.sqrt ((v.d : ℚ) : ℝ) = ((v.d : ℚ) : ℝ) :=
    Real.mul_self_sqrt hdR
  simp only [Qs.toReal, Qs.mul, h]
  push_cast
  linear_combination (-((u.q : ℝ) * (v.q : ℝ))) * hs2

theorem Qs.toReal_lerp (u v t : Qs) (hu : u.d = t.d) (hv : v.d = t.d) (hd : 0 ≤ t.d) :
    (Qs.lerp u v t).toReal = (1 - t.toReal) * u.toReal + t.toReal * v.toReal := by
  have h1 : 0 ≤ u.d := hu.symm ▸ hd
  have h2 : 0 ≤ v.d := hv.symm ▸ hd
  unfold Qs.lerp
  rw [Qs.toReal_add (((Qs.ofRatD t.d 1).add ((Qs.ofRatD t.d (-1)).mul t)).mul u)
      (t.mul v) rfl]
  rw [Qs.toReal_mul ((Qs.ofRatD t.d 1).add ((Qs.ofRatD t.d (-1)).mul t)) u hu.symm h1]
  rw [Qs.toReal_mul t v hv.symm h2]
  rw [Qs.toReal_add (Qs.ofRatD t.d 1) ((Qs.ofRatD t.d (-1)).mul t) rfl]
  rw [Qs.toReal_mul (Qs.ofRatD t.d (-1)) t rfl hd]
  rw [Qs.toReal_ofRatD, Qs.toReal_ofRatD]
  push_cast
  ring

/-- One coordinate channel of the symbolic sampler, fully interpreted. -/
theorem Qs.toReal_lerp3 (x0 x1 x2 : ℚ) (t : Qs) (hd : 0 ≤ t.d) :
    (Qs.lerp (Qs.lerp (Qs.ofRatD t.d x0) (Qs.ofRatD t.d x1) t)
             (Qs.lerp (Qs.ofRatD t.d x1) (Qs.ofRatD t.d x2) t) t).toReal =
      (1 - t.toReal) * ((1 - t.toReal) * (x0 : ℝ) + t.toReal * (x1 : ℝ)) +
      t.toReal * ((1 - t.toReal) * (x1 : ℝ) + t.toReal * (x2 : ℝ)) := by
  rw [Qs.toReal_lerp (Qs.lerp (Qs.ofRatD t.d x0) (Qs.ofRatD t.d x1) t)
      (Qs.lerp (Qs.ofRatD t.d x1) (Qs.ofRatD t.d x2) t) t rfl rfl hd,
    Qs.toReal_lerp (Qs.ofRatD t.d x0) (Qs.ofRatD t.d x1) t rfl rfl hd,
    Qs.toReal_lerp (Qs.ofRatD t.d x1) (Qs.ofRatD t.d x2) t rfl rfl hd]
  simp only [Qs.toReal_ofRatD]

/-- The symbolic sampler agrees with real sampling of the mapped curve. -/
theorem Curve.toReal_sampleQs (c : Curve ℚ) (t : Qs) (hd : 0 ≤ t.d) :
    (c.sampleQs t).1.toReal = ((c.map Rat.cast).sample t.toReal).x ∧
    (c.sampleQs t).2.toReal = ((c.map Rat.cast).sample t.toReal).y := by
  simp only [Curve.sampleQs]
  constructor
  · rw [Qs.toReal_lerp3 (c.endpoints 0).x c.control_point.x ((c.endpoints 1).x) t hd]
    simp only [Curve.sample, Curve.map, Point2D.map, Point2D.lerp]
  · rw [Qs.toReal_lerp3 (c.endpoints 0).y c.control_point.y ((c.endpoints 1).y) t hd]
    simp only [Curve.sample, Curve.map, Point2D.map, Point2D.lerp]

/-- C7 is false as stated: for a curve monotonically *decreasing* in x the
Citardauq quotient divides by zero (linear case) or picks the root outside
`[0, 1]`, and the clamped result does not solve for `x`.  Concretely the
straight curve with x-coordinates 10, 5, 0 queried at `x = 3` (inside the
x-range, x strictly decreasing in t) yields `t = 1` (the denominator
`-b - √(b²) = 10 - 10` is `+0.0`, `2c/+0.0 = +∞`, clamped to 1), and
sampling there gives x-coordinate 0, not within any reasonable tolerance
of 3. -/
theorem solve_sample_roundtrip_counterexample :
    AntitoneOn
      (fun t : ℝ => (((Curve.new ⟨10, 0⟩ ⟨5, 0⟩ ⟨0, 0⟩ : Curve ℚ).map Rat.cast).sample t).x)
      (Set.Icc 0 1) ∧
    ((((Curve.new ⟨10, 0⟩ ⟨5, 0⟩ ⟨0, 0⟩ : Curve ℚ).endpoints 1).x : ℝ) ≤ 3) ∧
    ((3:ℝ) ≤ (((Curve.new ⟨10, 0⟩ ⟨5, 0⟩ ⟨0, 0⟩ : Curve ℚ).endpoints 0).x : ℝ)) ∧
    ((((Curve.new ⟨10, 0⟩ ⟨5, 0⟩ ⟨0, 0⟩ : Curve ℚ).map Rat.cast).sample
      (((Curve.new ⟨10, 0⟩ ⟨5, 0⟩ ⟨0, 0⟩ : Curve ℚ).solve_t_for_x 3).toReal)).x = 0) ∧
    ¬ (|(((Curve.new ⟨10, 0⟩ ⟨5, 0⟩ ⟨0, 0⟩ : Curve ℚ).map Rat.cast).sample
      (((Curve.new ⟨10, 0⟩ ⟨5, 0⟩ ⟨0, 0⟩ : Curve ℚ).solve_t_for_x 3).toReal)).x - 3| ≤ 1) := by
  have hsolve : (Curve.new ⟨10, 0⟩ ⟨5, 0⟩ ⟨0, 0⟩ : Curve ℚ).solve_t_for_x 3 =
      Qs.ofRat 1 := by
    norm_num [Curve.solve_t_for_x, Curve.new,
      Matrix.cons_val_zero, Matrix.cons_val_one, Matrix.head_cons]
  have hT : ((Curve.new ⟨10, 0⟩ ⟨5, 0⟩ ⟨0, 0⟩ : Curve ℚ).solve_t_for_x 3).toReal = 1 := by
    rw [hsolve, Qs.toReal_ofRat]
    norm_num
  have hsample : (((Curve.new ⟨10, 0⟩ ⟨5, 0⟩ ⟨0, 0⟩ : Curve ℚ).map Rat.cast).sample
      (((Curve.new ⟨10, 0⟩ ⟨5, 0⟩ ⟨0, 0⟩ : Curve ℚ).solve_t_for_x 3).toReal)).x = 0 := by
    rw [hT]
    norm_num [Curve.sample, Curve.map, Curve.new, Point2D.map, Point2D.lerp,
      Matrix.cons_val_zero, Matrix.cons_val_one, Matrix.head_cons]
  refine ⟨?_, by norm_num [Curve.new, Matrix.cons_val_one, Matrix.head_cons],
    by norm_num [Curve.new, Matrix.cons_val_zero], hsample, ?_⟩
  · intro s hs u hu hsu
    simp only [Curve.sample, Curve.map, Curve.new, Point2D.map, Point2D.lerp,
      Matrix.cons_val_zero, Matrix.cons_val_one, Matrix.head_cons]
    push_cast
    nlinarith [hs.1, hs.2, hu.1, hu.2]
  · rw [hsample]
    norm_num

set_option maxHeartbeats 1600000 in
/-- C7 (amended): for every curve whose x-coordinate is monotonically
*non-decreasing* in `t` on `[0, 1]` (the restriction the counterexample
forces — the Citardauq quotient picks the correct root only in that
direction) and every `x` between the endpoint x-values, sampling at
`solve_t_for_x(x)` returns the x-coordinate `x` exactly; and
`solve_y_for_x(x)` is exactly the y-coordinate of
`sample(solve_t_for_x(x))`. -/
theorem solve_sample_roundtrip_increasing (c : Curve ℚ) (x : ℚ)
    (hmono : MonotoneOn (fun t : ℝ => ((c.map Rat.cast).sample t).x) (Set.Icc 0 1))
    (hlo : (((c.endpoints 0).x : ℚ) : ℝ) ≤ ((x : ℚ) : ℝ))
    (hhi : ((x : ℚ) : ℝ) ≤ (((c.endpoints 1).x : ℚ) : ℝ)) :
    ((c.map Rat.cast).sample ((c.solve_t_for_x x).toReal)).x = ((x : ℚ) : ℝ) ∧
    (c.solve_y_for_x x).toReal =
      ((c.map Rat.cast).sample ((c.solve_t_for_x x).toReal)).y := by
  refine ⟨?_, (Curve.toReal_sampleQs c (c.solve_t_for_x x)
    (Curve.solve_t_for_x_d_nonneg c x)).2⟩
  have hpoly : (fun t : ℝ => ((c.map Rat.cast).sample t).x) =
      fun t : ℝ =>
        (((c.endpoints 0).x - 2 * c.control_point.x + (c.endpoints 1).x : ℚ) : ℝ) * t ^ 2 +
        ((-2 * (c.endpoints 0).x + 2 * c.control_point.x : ℚ) : ℝ) * t +
        (((c.endpoints 0).x : ℚ) : ℝ) := funext fun t => Curve.sampleX_poly c t
  rw [hpoly] at hmono
  obtain ⟨hB, hAB⟩ := monotoneOn_quadratic_coeffs _ _ _ hmono
  rw [Curve.sampleX_poly c]
  simp only [Curve.solve_t_for_x]
  set p0 := (c.endpoints 0).x with hp0
  set p1 := c.control_point.x with hp1
  set p2 := (c.endpoints 1).x with hp2
  clear_value p0 p1 p2
  have hCR : ((p0 - x : ℚ) : ℝ) ≤ 0 := by
    push_cast
    linarith
  have hCQ : p0 - x ≤ 0 := by exact_mod_cast hCR
  have hBQ : (0:ℚ) ≤ -2 * p0 + 2 * p1 := by exact_mod_cast hB
  have hSumR : (0:ℝ) ≤ ((p0 - 2 * p1 + p2 : ℚ) : ℝ) +
      ((-2 * p0 + 2 * p1 : ℚ) : ℝ) + ((p0 - x : ℚ) : ℝ) := by
    push_cast
    linarith
  have hDR : (0:ℝ) ≤ (((-2 * p0 + 2 * p1) * (-2 * p0 + 2 * p1) -
      4 * (p0 - 2 * p1 + p2) * (p0 - x) : ℚ) : ℝ) := by
    rcases le_or_lt 0 ((p0 - 2 * p1 + p2 : ℚ) : ℝ) with hA | hA
    · push_cast
      push_cast at hA hB hCR
      nlinarith
    · push_cast
      push_cast at hA hB hCR hSumR
      nlinarith [sq_nonneg (((p0 : ℝ) - 2 * p1 + p2) - ((p0 : ℝ) - x)),
        mul_self_le_mul_self (by linarith : (0:ℝ) ≤ -(((p0 : ℝ) - 2 * p1 + p2) + ((p0 : ℝ) - x)))
          (by linarith : -(((p0 : ℝ) - 2 * p1 + p2) + ((p0 : ℝ) - x)) ≤ -2 * (p0 : ℝ) + 2 * p1)]
  split_ifs with h1 h2 h3 h4 h5 h6 h7
  · -- negative discriminant: impossible
    exfalso
    have : ((-2 * p0 + 2 * p1) * (-2 * p0 + 2 * p1) -
        4 * (p0 - 2 * p1 + p2) * (p0 - x) : ℚ) < 0 := h1
    have : (((-2 * p0 + 2 * p1) * (-2 * p0 + 2 * p1) -
        4 * (p0 - 2 * p1 + p2) * (p0 - x) : ℚ) : ℝ) < 0 := by exact_mod_cast this
    linarith
  · -- c = 0: the solver returns 0 and x = p0
    rw [Qs.toReal_ofRat]
    have : (p0 : ℝ) = (x : ℝ) := by
      have : ((p0 - x : ℚ) : ℝ) = 0 := by rw [h3]; norm_num
      push_cast at this
      linarith
    push_cast
    push_cast at this
    nlinarith
  · -- 0 < c contradicts x ≥ p0
    exact absurd h5 (not_lt.mpr hCQ)
  · -- b = 0, c ≠ 0: impossible (the curve would be constant with x ≠ p0)
    exfalso
    have h4ac : (p0 - 2 * p1 + p2) * (p0 - x) = 0 := by nlinarith [h2.2]
    rcases mul_eq_zero.mp h4ac with ha0 | hc0
    · rw [ha0, h4] at hSumR
      norm_num at hSumR
      exact h3 (by linarith [hCQ, hSumR])
    · exact h3 hc0
  · exact absurd h6 (not_lt.mpr hCQ)
  · -- b ≤ 0 together with 0 ≤ b forces b = 0, contradicting this branch
    exact absurd (le_antisymm h2.1 hBQ) h4
  · -- b² = disc: b > 0 and the root is -c/b
    have hb : 0 < -2 * p0 + 2 * p1 := by
      rcases not_and_or.mp h2 with h | h
      · exact lt_of_not_le h
      · exact absurd h7 h
    have h4ac : (p0 - 2 * p1 + p2) * (p0 - x) = 0 := by nlinarith [h7]
    rcases mul_eq_zero.mp h4ac with ha0 | hc0
    · -- a = 0, linear solve
      have hbR : (0:ℝ) < ((-2 * p0 + 2 * p1 : ℚ) : ℝ) := by exact_mod_cast hb
      have hv0 : (0:ℚ) ≤ -(p0 - x) / (-2 * p0 + 2 * p1) :=
        div_nonneg (by linarith) (le_of_lt hb)
      have hv1 : -(p0 - x) / (-2 * p0 + 2 * p1) ≤ 1 := by
        rw [div_le_one hb]
        rw [ha0] at hSumR
        norm_num at hSumR
        have : (-(p0 - x) : ℝ) ≤ ((-2 * p0 + 2 * p1 : ℚ) : ℝ) := by
          push_cast
          linarith
        exact_mod_cast this
      rw [Qs.toReal_clamp01, Qs.toReal_ofRat]
      · rw [max_eq_right (by exact_mod_cast hv0),
          min_eq_right (by exact_mod_cast hv1)]
        have hbQne : -2 * p0 + 2 * p1 ≠ 0 := ne_of_gt hb
        have hq : (p0 - 2 * p1 + p2) * (-(p0 - x) / (-2 * p0 + 2 * p1)) ^ 2 +
            (-2 * p0 + 2 * p1) * (-(p0 - x) / (-2 * p0 + 2 * p1)) + p0 = x := by
          rw [ha0]
          field_simp
          have hu : (-(2 * p0) + 2 * p1) ≠ 0 := by
            intro h
            exact hbQne (by linarith)
          rw [mul_div_cancel_left₀ (x - p0) hu]
          ring
        exact_mod_cast hq
      · norm_num [Qs.ofRat]
    · -- c = 0 inside this branch: the root is 0
      rw [hc0]
      rw [Qs.toReal_clamp01, Qs.toReal_ofRat]
      · have : (p0 : ℝ) = (x : ℝ) := by
          have : ((p0 - x : ℚ) : ℝ) = 0 := by rw [hc0]; norm_num
          push_cast at this
          linarith
        norm_num
        nlinarith [this]
      · norm_num [Qs.ofRat]
  · -- generic branch: clamp is a no-op on the Citardauq root, which solves
    have h4ac : (p0 - 2 * p1 + p2) * (p0 - x) ≠ 0 := by
      intro h0
      apply h7
      nlinarith [h0]
    have haQ : p0 - 2 * p1 + p2 ≠ 0 := fun h0 => h4ac (by rw [h0]; ring)
    have hcQ : p0 - x ≠ 0 := fun h0 => h4ac (by rw [h0]; ring)
    have hAne : ((p0 - 2 * p1 + p2 : ℚ) : ℝ) ≠ 0 := by exact_mod_cast haQ
    have hCc : ((p0 - x : ℚ) : ℝ) < 0 :=
      lt_of_le_of_ne hCR (by exact_mod_cast hcQ)
    have hDQ : (0:ℚ) ≤ (-2 * p0 + 2 * p1) * (-2 * p0 + 2 * p1) -
        4 * (p0 - 2 * p1 + p2) * (p0 - x) := by exact_mod_cast hDR
    have hS0 : (0:ℝ) ≤ Real.sqrt ((((-2 * p0 + 2 * p1) * (-2 * p0 + 2 * p1) -
        4 * (p0 - 2 * p1 + p2) * (p0 - x) : ℚ)) : ℝ) := Real.sqrt_nonneg _
    have hS2 : Real.sqrt ((((-2 * p0 + 2 * p1) * (-2 * p0 + 2 * p1) -
          4 * (p0 - 2 * p1 + p2) * (p0 - x) : ℚ)) : ℝ) *
        Real.sqrt ((((-2 * p0 + 2 * p1) * (-2 * p0 + 2 * p1) -
          4 * (p0 - 2 * p1 + p2) * (p0 - x) : ℚ)) : ℝ) =
        ((-2 * p0 + 2 * p1 : ℚ) : ℝ) * ((-2 * p0 + 2 * p1 : ℚ) : ℝ) -
          4 * ((p0 - 2 * p1 + p2 : ℚ) : ℝ) * ((p0 - x : ℚ) : ℝ) := by
      rw [Real.mul_self_sqrt hDR]
      push_cast
      ring
    have hveq : 2 * ((p0 - 2 * p1 + p2 : ℚ) : ℝ) *
          (Qs.mk (-(-2 * p0 + 2 * p1) / (2 * (p0 - 2 * p1 + p2)))
            (1 / (2 * (p0 - 2 * p1 + p2)))
            ((-2 * p0 + 2 * p1) * (-2 * p0 + 2 * p1) -
              4 * (p0 - 2 * p1 + p2) * (p0 - x))).toReal +
        ((-2 * p0 + 2 * p1 : ℚ) : ℝ) -
        Real.sqrt ((((-2 * p0 + 2 * p1) * (-2 * p0 + 2 * p1) -
          4 * (p0 - 2 * p1 + p2) * (p0 - x) : ℚ)) : ℝ) = 0 := by
      simp only [Qs.toReal]
      push_cast
      push_cast at hAne
      field_simp
      ring
    obtain ⟨hv0, hv1, hroot⟩ := citardauq_root_bounds
      ((p0 - 2 * p1 + p2 : ℚ) : ℝ) ((-2 * p0 + 2 * p1 : ℚ) : ℝ)
      ((p0 - x : ℚ) : ℝ)
      (Real.sqrt ((((-2 * p0 + 2 * p1) * (-2 * p0 + 2 * p1) -
        4 * (p0 - 2 * p1 + p2) * (p0 - x) : ℚ)) : ℝ))
      ((Qs.mk (-(-2 * p0 + 2 * p1) / (2 * (p0 - 2 * p1 + p2)))
        (1 / (2 * (p0 - 2 * p1 + p2)))
        ((-2 * p0 + 2 * p1) * (-2 * p0 + 2 * p1) -
          4 * (p0 - 2 * p1 + p2) * (p0 - x))).toReal)
      hS0 hS2 hAne hCc hB hSumR hveq
    rw [Qs.toReal_clamp01]
    · rw [max_eq_right hv0, min_eq_right hv1]
      push_cast
      push_cast at hroot
      linarith
    · exact hDQ

/-- Witness for the amended C7: the x-increasing curve with x-coordinates
0, 5, 10 queried at `x = 3` satisfies the hypotheses, and sampling at the
solved parameter recovers x = 3 exactly. -/
theorem solve_sample_roundtrip_increasing_witness :
    MonotoneOn
      (fun t : ℝ => (((Curve.new ⟨0, 1⟩ ⟨5, 2⟩ ⟨10, 3⟩ : Curve ℚ).map Rat.cast).sample t).x)
      (Set.Icc 0 1) ∧
    ((((Curve.new ⟨0, 1⟩ ⟨5, 2⟩ ⟨10, 3⟩ : Curve ℚ).endpoints 0).x : ℝ) ≤ ((3:ℚ) : ℝ)) ∧
    (((3:ℚ) : ℝ) ≤ (((Curve.new ⟨0, 1⟩ ⟨5, 2⟩ ⟨10, 3⟩ : Curve ℚ).endpoints 1).x : ℝ)) ∧
    ((((Curve.new ⟨0, 1⟩ ⟨5, 2⟩ ⟨10, 3⟩ : Curve ℚ).map Rat.cast).sample
      (((Curve.new ⟨0, 1⟩ ⟨5, 2⟩ ⟨10, 3⟩ : Curve ℚ).solve_t_for_x 3).toReal)).x =
      ((3:ℚ) : ℝ)) ∧
    ((Curve.new ⟨0, 1⟩ ⟨5, 2⟩ ⟨10, 3⟩ : Curve ℚ).solve_y_for_x 3).toReal =
      (((Curve.new ⟨0, 1⟩ ⟨5, 2⟩ ⟨10, 3⟩ : Curve ℚ).map Rat.cast).sample
        (((Curve.new ⟨0, 1⟩ ⟨5, 2⟩ ⟨10, 3⟩ : Curve ℚ).solve_t_for_x 3).toReal)).y := by
  have hmono : MonotoneOn
      (fun t : ℝ => (((Curve.new ⟨0, 1⟩ ⟨5, 2⟩ ⟨10, 3⟩ : Curve ℚ).map Rat.cast).sample t).x)
      (Set.Icc 0 1) := by
    intro a ha b hb hab
    simp only [Curve.sample, Curve.map, Curve.new, Point2D.map, Point2D.lerp,
      Matrix.cons_val_zero, Matrix.cons_val_one, Matrix.head_cons]
    push_cast
    nlinarith
  have hlo : ((((Curve.new ⟨0, 1⟩ ⟨5, 2⟩ ⟨10, 3⟩ : Curve ℚ).endpoints 0).x : ℚ) : ℝ) ≤
      ((3:ℚ) : ℝ) := by
    norm_num [Curve.new, Matrix.cons_val_zero]
  have hhi : (((3:ℚ)) : ℝ) ≤
      ((((Curve.new ⟨0, 1⟩ ⟨5, 2⟩ ⟨10, 3⟩ : Curve ℚ).endpoints 1).x : ℚ) : ℝ) := by
    norm_num [Curve.new, Matrix.cons_val_one, Matrix.head_cons]
  obtain ⟨h1, h2⟩ :=
    solve_sample_roundtrip_increasing (Curve.new ⟨0, 1⟩ ⟨5, 2⟩ ⟨10, 3⟩) 3 hmono hlo hhi
  exact ⟨hmono, hlo, hhi, h1, h2⟩
